import Mathlib

/-!
# A verification model of the stock-data cleaning and feature pipeline

This file gives a shallow embedding of the two core stages of the pipeline:

* `clean_data` (from `clean_data.py`): parse the date column (aborting the
  whole stage if any cell is unparseable), drop rows with missing values,
  filter out non-positive prices/volumes, and sort by `(TICKER, DATE)`.
* `engineer_features` (from `feature_engineering.py`): group the cleaned
  rows by ticker, sort each group by date, compute `Return_1d` (pandas
  `pct_change`), `MA_5d`/`MA_10d` (rolling means, window 5/10) and
  `Volatility_10d` (rolling sample standard deviation of `Return_1d`,
  window 10), concatenate the groups in ticker order and drop every row
  with any missing (NaN) derived value.

Modelling conventions:
* prices and volumes are rationals (`ℚ`); a pandas `NaN` cell is `none`
  of an `Option`;
* dates are integers (a day count); the raw date cell is a `DateCell`
  which is either missing (`NaT` after parsing, later removed by
  `dropna`), unparseable (`pd.to_datetime` raises, the stage aborts via
  `sys.exit`), or a parsed day number;
* the stage abort (`sys.exit(1)`) is an `Except.error`; an `Except.ok`
  carries the full output collection, so there is no partial output;
* pandas' stable lexicographic sort (`sort_values` over several key
  columns uses `np.lexsort`, a stable sort) is modelled by the stable
  `List.insertionSort`;
* `pandas.rolling(w)` has `min_periods = w` by default: the statistic is
  `NaN` unless the trailing window holds `w` non-`NaN` values;
* the rolling standard deviation uses `ddof = 1` (divisor `n - 1`); its
  value is carried as the sample *variance* (`Volatility_10d_sq`, the
  square of the code's `Volatility_10d`), because the square root of a
  rational is not rational.  Squaring is injective on the nonnegative
  standard deviations, so the two fields determine each other, and their
  definedness (`NaN`-ness) coincides: `sqrt` of a non-`NaN` nonnegative
  value is never `NaN`.
-/

namespace StockPipeline

/-- One validated daily observation: the row schema of the cleaned CSV.
Field names follow the source's column names. -/
structure PriceRecord where
  ticker : String
  date : Int
  Price_Open : ℚ
  Price_Close : ℚ
  Price_High : ℚ
  Price_Low : ℚ
  Volume : ℚ
deriving DecidableEq, Repr, Inhabited

/-- The raw `DATE` cell as seen by `pd.to_datetime`: missing (`NaN`,
parsed to `NaT` without error), unparseable (raises, aborting the
stage), or successfully parsed to a day number. -/
inductive DateCell where
  | missing
  | unparseable
  | parsed (d : Int)
deriving DecidableEq, Repr

/-- One raw input row; each cell other than the date is either present
or `NaN` (`none`). -/
structure RawRow where
  ticker : Option String
  date : DateCell
  Price_Open : Option ℚ
  Price_Close : Option ℚ
  Price_High : Option ℚ
  Price_Low : Option ℚ
  Volume : Option ℚ
deriving DecidableEq, Repr

/-- `df.dropna()` on one row: the row survives (as a `PriceRecord`)
exactly when every cell is present and the date parsed. -/
def RawRow.dropnaOk (w : RawRow) : Option PriceRecord :=
  match w.ticker, w.date, w.Price_Open, w.Price_Close, w.Price_High, w.Price_Low, w.Volume with
  | some t, DateCell.parsed d, some o, some c, some hi, some lo, some v =>
      some ⟨t, d, o, c, hi, lo, v⟩
  | _, _, _, _, _, _, _ => none

/-- The loop `for col in price_cols: df = df[df[col] > 0]`: one strict
positivity filter per price/volume column, in the source's order. -/
def positivityFilter (rs : List PriceRecord) : List PriceRecord :=
  ((((rs.filter fun r => decide (0 < r.Price_Open)).filter
      fun r => decide (0 < r.Price_Close)).filter
      fun r => decide (0 < r.Price_High)).filter
      fun r => decide (0 < r.Price_Low)).filter
      fun r => decide (0 < r.Volume)

/-- The sort key of `df.sort_values(by=['TICKER', 'DATE'])`:
lexicographic on `(ticker, date)`. -/
def keyLe (r s : PriceRecord) : Prop :=
  r.ticker < s.ticker ∨ (r.ticker = s.ticker ∧ r.date ≤ s.date)

instance : DecidableRel keyLe := fun r s =>
  inferInstanceAs (Decidable (_ ∨ _))

instance : IsTotal PriceRecord keyLe := by
  constructor
  intro a b
  rcases lt_trichotomy a.ticker b.ticker with h | h | h
  · exact Or.inl (Or.inl h)
  · rcases le_total a.date b.date with hd | hd
    · exact Or.inl (Or.inr ⟨h, hd⟩)
    · exact Or.inr (Or.inr ⟨h.symm, hd⟩)
  · exact Or.inr (Or.inl h)

instance : IsTrans PriceRecord keyLe := by
  constructor
  intro a b c hab hbc
  rcases hab with h₁ | ⟨e₁, d₁⟩
  · rcases hbc with h₂ | ⟨e₂, _⟩
    · exact Or.inl (h₁.trans h₂)
    · exact Or.inl (e₂ ▸ h₁)
  · rcases hbc with h₂ | ⟨e₂, d₂⟩
    · exact Or.inl (e₁ ▸ h₂)
    · exact Or.inr ⟨e₁.trans e₂, d₁.trans d₂⟩

/-- The stage-abort outcome (`sys.exit(1)` after a date-parse failure). -/
inductive CleanError where
  | parseError
deriving DecidableEq, Repr

/-- `clean_data`: parse dates (aborting on any unparseable cell), drop
rows with missing values, filter out non-positive prices/volumes, and
stably sort by `(TICKER, DATE)`. -/
def clean_data (rows : List RawRow) : Except CleanError (List PriceRecord) :=
  if rows.any fun w => decide (w.date = DateCell.unparseable) then
    Except.error CleanError.parseError
  else
    Except.ok (List.insertionSort keyLe (positivityFilter (rows.filterMap RawRow.dropnaOk)))

/-! ## Feature stage -/

/-- A cleaned row together with the four derived columns; a derived cell
is `none` where the code holds `NaN`.  `Volatility_10d_sq` carries the
sample variance, the square of the code's `Volatility_10d` (see the file
docstring). -/
structure FeaturedRecord extends PriceRecord where
  Return_1d : Option ℚ
  MA_5d : Option ℚ
  MA_10d : Option ℚ
  Volatility_10d_sq : Option ℚ
deriving DecidableEq, Repr, Inhabited

/-- Arithmetic mean (`rolling(w).mean()` applied to one full window). -/
def mean (xs : List ℚ) : ℚ := xs.sum / xs.length

/-- Sample variance with Bessel's correction (`ddof = 1`, divisor
`n - 1`): the square of `rolling(w).std()` on one full window. -/
def sampleVar (xs : List ℚ) : ℚ :=
  (xs.map fun x => (x - mean xs) ^ 2).sum / ((xs.length : ℚ) - 1)

/-- `Series.pct_change()` after a nonempty first element:
`some (c / prev - 1)` cell by cell, threading the previous value. -/
def pctChangeFrom (prev : ℚ) : List ℚ → List (Option ℚ)
  | [] => []
  | c :: cs => some (c / prev - 1) :: pctChangeFrom c cs

/-- `Series.pct_change()`: `NaN` at position 0, then
`close[i]/close[i-1] - 1`. -/
def pct_change : List ℚ → List (Option ℚ)
  | [] => []
  | c :: cs => none :: pctChangeFrom c cs

/-- `Series.rolling(w).agg(f)` at position `i`, with pandas' default
`min_periods = w`: the trailing window of the last `w` positions must
hold `w` non-`NaN` values, else the result is `NaN`. -/
def rollingApply (f : List ℚ → ℚ) (w : Nat) (xs : List (Option ℚ)) (i : Nat) : Option ℚ :=
  if (((xs.take (i + 1)).drop (i + 1 - w)).reduceOption).length = w then
    some (f (((xs.take (i + 1)).drop (i + 1 - w)).reduceOption))
  else none

/-- `group.sort_values('DATE')` for one ticker group. -/
def sortByDate (g : List PriceRecord) : List PriceRecord :=
  List.insertionSort (fun r s : PriceRecord => r.date ≤ s.date) g

instance : DecidableRel (fun r s : PriceRecord => r.date ≤ s.date) := fun r s =>
  inferInstanceAs (Decidable (_ ≤ _))

instance : IsTotal PriceRecord (fun r s : PriceRecord => r.date ≤ s.date) :=
  ⟨fun a b => le_total a.date b.date⟩

instance : IsTrans PriceRecord (fun r s : PriceRecord => r.date ≤ s.date) :=
  ⟨fun _ _ _ hab hbc => hab.trans hbc⟩

/-- The body of the `for ticker, group in df.groupby('TICKER')` loop:
sort the group by date and attach the four derived columns to each row. -/
def featurizeGroup (g : List PriceRecord) : List FeaturedRecord :=
  (List.range (sortByDate g).length).map fun i =>
    { toPriceRecord := (sortByDate g).getD i default
      Return_1d := (pct_change ((sortByDate g).map (·.Price_Close))).getD i none
      MA_5d := rollingApply mean 5 (((sortByDate g).map (·.Price_Close)).map some) i
      MA_10d := rollingApply mean 10 (((sortByDate g).map (·.Price_Close)).map some) i
      Volatility_10d_sq :=
        rollingApply sampleVar 10 (pct_change ((sortByDate g).map (·.Price_Close))) i }

/-- `df.groupby('TICKER')` iterates the distinct tickers in ascending
order (pandas `sort=True` default). -/
def tickers (rs : List PriceRecord) : List String :=
  List.insertionSort (fun a b : String => a ≤ b) (rs.map (·.ticker)).dedup

/-- One ticker's group: the input rows with that ticker, in input order. -/
def groupOf (rs : List PriceRecord) (t : String) : List PriceRecord :=
  rs.filter fun r => decide (r.ticker = t)

/-- The final `dropna`: a row survives exactly when every derived cell
is present (the original cells of a `PriceRecord` are total). -/
def hasAllFeatures (fr : FeaturedRecord) : Bool :=
  fr.Return_1d.isSome && fr.MA_5d.isSome && fr.MA_10d.isSome && fr.Volatility_10d_sq.isSome

/-- The featured rows once at least one group exists: per-ticker
featurization, concatenation of the groups in ticker order
(`pd.concat`), then the final `dropna`. -/
def featuredRows (rs : List PriceRecord) : List FeaturedRecord :=
  (((tickers rs).map fun t => featurizeGroup (groupOf rs t)).flatten).filter hasAllFeatures

/-- The feature stage's failure: `pd.concat(feature_frames)` raises
`ValueError: No objects to concatenate` when the grouping loop produced
no frame at all, i.e. exactly when the cleaned input is empty. -/
inductive FeatureError where
  | emptyConcat
deriving DecidableEq, Repr

/-- `engineer_features`: group by ticker, featurize each group, then
concatenate and drop incomplete rows.  With zero groups the
concatenation raises (an uncaught `ValueError`), modelled as an error
outcome. -/
def engineer_features (rs : List PriceRecord) : Except FeatureError (List FeaturedRecord) :=
  if tickers rs = [] then Except.error FeatureError.emptyConcat
  else Except.ok (featuredRows rs)

/-! ## Concrete inputs used to instantiate the theorems -/

/-- The close prices of the spec's windowing example. -/
def demoCloses : List ℚ := [10, 11, 12, 11, 10, 9, 10, 11, 12, 13, 14]

/-- A single-ticker cleaned series over `demoCloses`, dates `0..10`. -/
def demoG : List PriceRecord :=
  (List.range demoCloses.length).map fun i =>
    { ticker := "AAPL", date := Int.ofNat i, Price_Open := 1,
      Price_Close := demoCloses.getD i 0, Price_High := 1, Price_Low := 1, Volume := 1 }

/-- A valid raw row (ticker `"B"`, day 3). -/
def demoRawB : RawRow :=
  ⟨some "B", DateCell.parsed 3, some 1, some 2, some 3, some 1, some 5⟩

/-- A valid raw row (ticker `"A"`, day 7): sorts before `demoRawB`. -/
def demoRawA : RawRow :=
  ⟨some "A", DateCell.parsed 7, some 1, some 2, some 3, some 1, some 5⟩

/-- A raw row with a negative volume: dropped by the positivity filter. -/
def demoRawNegVol : RawRow :=
  ⟨some "A", DateCell.parsed 1, some 1, some 2, some 3, some 1, some (-5)⟩

/-- A raw row with a missing close: dropped by `dropna`. -/
def demoRawNull : RawRow :=
  ⟨some "A", DateCell.parsed 2, some 1, none, some 3, some 1, some 5⟩

/-- A raw row whose date cell cannot be parsed: aborts the stage. -/
def demoRawBadDate : RawRow :=
  ⟨some "A", DateCell.unparseable, some 1, some 2, some 3, some 1, some 5⟩

/-- A single observation of a second ticker `"B"`. -/
def demoB1 : PriceRecord := ⟨"B", 0, 1, 2, 3, 1, 5⟩

/-- A two-ticker cleaned input: `"B"`'s row interleaved in front of the
demo ticker's series. -/
def demoTwo : List PriceRecord := demoB1 :: demoG

/-- The cleaned record corresponding to `demoRawA`. -/
def demoRecA : PriceRecord := ⟨"A", 7, 1, 2, 3, 1, 5⟩

/-- The cleaned record corresponding to `demoRawB`. -/
def demoRecB : PriceRecord := ⟨"B", 3, 1, 2, 3, 1, 5⟩

/-- Two same-key records distinguished by volume, for the stability check. -/
def demoTieFst : PriceRecord := ⟨"A", 5, 1, 2, 3, 1, 7⟩

/-- Second same-key record, appearing after `demoTieFst` in the input. -/
def demoTieSnd : PriceRecord := ⟨"A", 5, 1, 2, 3, 1, 8⟩

/-- Turn a same-key record back into a raw row (all cells present). -/
def PriceRecord.toRaw (r : PriceRecord) : RawRow :=
  ⟨some r.ticker, DateCell.parsed r.date, some r.Price_Open, some r.Price_Close,
    some r.Price_High, some r.Price_Low, some r.Volume⟩

/-! ## Lemmas: indexing the derived columns -/

theorem getD_of_lt {α : Type} (l : List α) (d : α) {i : Nat} (h : i < l.length) :
    l.getD i d = l[i] := by
  simp [List.getD_eq_getElem?_getD, List.getElem?_eq_getElem h]

theorem pctChangeFrom_length (prev : ℚ) (cs : List ℚ) :
    (pctChangeFrom prev cs).length = cs.length := by
  induction cs generalizing prev with
  | nil => rfl
  | cons c cs ih => simp [pctChangeFrom, ih]

theorem pct_change_length (cs : List ℚ) : (pct_change cs).length = cs.length := by
  cases cs with
  | nil => rfl
  | cons c cs => simp [pct_change, pctChangeFrom_length]

theorem pctChangeFrom_getD (prev : ℚ) (cs : List ℚ) (i : Nat) (h : i < cs.length) :
    (pctChangeFrom prev cs).getD i none
      = some (cs.getD i 0 / (prev :: cs).getD i 0 - 1) := by
  induction cs generalizing prev i with
  | nil => simp at h
  | cons c cs ih =>
    cases i with
    | zero => simp [pctChangeFrom]
    | succ j =>
      simp only [pctChangeFrom, List.getD_cons_succ]
      exact ih c j (by simpa using h)

theorem pct_change_getD_zero (cs : List ℚ) : (pct_change cs).getD 0 none = none := by
  cases cs <;> rfl

theorem pct_change_getD_succ (cs : List ℚ) (i : Nat) (h : i + 1 < cs.length) :
    (pct_change cs).getD (i + 1) none
      = some (cs.getD (i + 1) 0 / cs.getD i 0 - 1) := by
  cases cs with
  | nil => simp at h
  | cons c cs =>
    simp only [pct_change, List.getD_cons_succ]
    rw [pctChangeFrom_getD c cs i (by simpa using h)]

theorem pct_change_isSome (cs : List ℚ) (i : Nat) (h1 : 1 ≤ i) (h : i < cs.length) :
    ((pct_change cs).getD i none).isSome = true := by
  obtain ⟨j, rfl⟩ : ∃ j, i = j + 1 := ⟨i - 1, by omega⟩
  rw [pct_change_getD_succ cs j h]
  rfl

theorem reduceOption_map_some (xs : List ℚ) : (xs.map some).reduceOption = xs := by
  induction xs with
  | nil => rfl
  | cons x xs ih => simp [List.reduceOption_cons_of_some, ih]

theorem rollingApply_map_some (f : List ℚ → ℚ) (w : Nat) (xs : List ℚ) (i : Nat)
    (hw : 0 < w) (hi : i < xs.length) :
    rollingApply f w (xs.map some) i
      = if w ≤ i + 1 then some (f ((xs.take (i + 1)).drop (i + 1 - w))) else none := by
  have hslice : (((xs.map some).take (i + 1)).drop (i + 1 - w))
      = ((xs.take (i + 1)).drop (i + 1 - w)).map some := by
    simp [List.map_take, List.map_drop]
  rw [rollingApply, hslice, reduceOption_map_some]
  have hlen : ((xs.take (i + 1)).drop (i + 1 - w)).length = (i + 1) - (i + 1 - w) := by
    simp
    omega
  by_cases hcase : w ≤ i + 1
  · rw [if_pos (by omega : ((xs.take (i + 1)).drop (i + 1 - w)).length = w), if_pos hcase]
  · rw [if_neg (by omega : ¬ ((xs.take (i + 1)).drop (i + 1 - w)).length = w), if_neg hcase]

theorem pct_change_window_len (cs : List ℚ) (i : Nat) (hi : i < cs.length) (hc : 10 ≤ i) :
    ((((pct_change cs).take (i + 1)).drop (i - 9)).reduceOption).length = 10 := by
  have hlenp := pct_change_length cs
  have hwlen : (((pct_change cs).take (i + 1)).drop (i - 9)).length = 10 := by
    simp
    omega
  have hall : ∀ x ∈ ((pct_change cs).take (i + 1)).drop (i - 9), x.isSome := by
    intro x hx
    obtain ⟨j, hj, rfl⟩ := List.mem_iff_getElem.mp hx
    rw [hwlen] at hj
    have hb : (i - 9) + j < (pct_change cs).length := by omega
    rw [List.getElem_drop, List.getElem_take]
    rw [← getD_of_lt (pct_change cs) none hb]
    exact pct_change_isSome cs ((i - 9) + j) (by omega) (by omega)
  rw [List.reduceOption_length_eq_iff.mpr hall, hwlen]

theorem rollingApply_volatility (cs : List ℚ) (i : Nat) (hi : i < cs.length) :
    rollingApply sampleVar 10 (pct_change cs) i
      = if 10 ≤ i then
          some (sampleVar ((((pct_change cs).take (i + 1)).drop (i - 9)).reduceOption))
        else none := by
  have hsub : i + 1 - 10 = i - 9 := by omega
  rw [rollingApply, hsub]
  have hlenp := pct_change_length cs
  by_cases hcase : 10 ≤ i
  · rw [if_pos (pct_change_window_len cs i hi hcase), if_pos hcase]
  · have hi9 : i - 9 = 0 := by omega
    obtain ⟨c, cs', rfl⟩ : ∃ c cs', cs = c :: cs' := by
      cases cs with
      | nil => simp at hi
      | cons c cs' => exact ⟨c, cs', rfl⟩
    have hshort : ((((pct_change (c :: cs')).take (i + 1)).drop (i - 9)).reduceOption).length ≤ 9 := by
      rw [hi9, List.drop_zero, pct_change, List.take_succ_cons, List.reduceOption_cons_of_none]
      calc ((pctChangeFrom c cs').take i).reduceOption.length
          ≤ ((pctChangeFrom c cs').take i).length := List.reduceOption_length_le _
        _ ≤ i := List.length_take_le _ _
        _ ≤ 9 := by omega
    rw [if_neg (by omega : ¬ ((((pct_change (c :: cs')).take (i + 1)).drop (i - 9)).reduceOption).length = 10),
      if_neg hcase]

/-! ## Lemmas: the shape of a featurized group -/

theorem length_sortByDate (g : List PriceRecord) : (sortByDate g).length = g.length :=
  List.length_insertionSort _ _

theorem length_featurizeGroup (g : List PriceRecord) :
    (featurizeGroup g).length = g.length := by
  simp [featurizeGroup, length_sortByDate]

theorem featurizeGroup_getD (g : List PriceRecord) (i : Nat) (h : i < g.length) :
    (featurizeGroup g).getD i default
      = { toPriceRecord := (sortByDate g).getD i default
          Return_1d := (pct_change ((sortByDate g).map (·.Price_Close))).getD i none
          MA_5d := rollingApply mean 5 (((sortByDate g).map (·.Price_Close)).map some) i
          MA_10d := rollingApply mean 10 (((sortByDate g).map (·.Price_Close)).map some) i
          Volatility_10d_sq :=
            rollingApply sampleVar 10 (pct_change ((sortByDate g).map (·.Price_Close))) i } := by
  have h1 : i < (featurizeGroup g).length := by rw [length_featurizeGroup]; exact h
  rw [getD_of_lt _ _ h1]
  simp only [featurizeGroup, List.getElem_map, List.getElem_range]

/-! ## Claim C1: returns and moving averages -/

/-- C1: for every ticker partition, processed in date-ascending order,
`Return_1d[i] = close[i]/close[i-1] - 1` for `i ≥ 1` and is missing at
`i = 0`; `MA_5d[i]` is the arithmetic mean of `close[i-4..i]` exactly
when `i ≥ 4`, and `MA_10d[i]` the mean of `close[i-9..i]` exactly when
`i ≥ 9` (both missing below the threshold). -/
theorem featurizeGroup_return_ma_formulas (g : List PriceRecord) (i : Nat) (hi : i < g.length) :
    ((featurizeGroup g).getD i default).Return_1d
        = (if 1 ≤ i then
            some (((sortByDate g).map (·.Price_Close)).getD i 0
                / ((sortByDate g).map (·.Price_Close)).getD (i - 1) 0 - 1)
          else none)
    ∧ ((featurizeGroup g).getD i default).MA_5d
        = (if 4 ≤ i then
            some (mean (((((sortByDate g).map (·.Price_Close)).take (i + 1)).drop (i - 4))))
          else none)
    ∧ ((featurizeGroup g).getD i default).MA_10d
        = (if 9 ≤ i then
            some (mean (((((sortByDate g).map (·.Price_Close)).take (i + 1)).drop (i - 9))))
          else none) := by
  rw [featurizeGroup_getD g i hi]
  have hclen : ((sortByDate g).map (·.Price_Close)).length = g.length := by
    simp [length_sortByDate]
  refine ⟨?_, ?_, ?_⟩
  · show (pct_change ((sortByDate g).map (·.Price_Close))).getD i none = _
    cases i with
    | zero => rw [pct_change_getD_zero, if_neg (by omega)]
    | succ j =>
      rw [pct_change_getD_succ _ j (by omega), if_pos (by omega)]
      rw [show j + 1 - 1 = j from by omega]
  · show rollingApply mean 5 _ _ = _
    rw [rollingApply_map_some mean 5 _ i (by omega) (by omega)]
    by_cases hc : 4 ≤ i
    · rw [if_pos (by omega : 5 ≤ i + 1), if_pos hc, show i + 1 - 5 = i - 4 from by omega]
    · rw [if_neg (by omega : ¬ 5 ≤ i + 1), if_neg hc]
  · show rollingApply mean 10 _ _ = _
    rw [rollingApply_map_some mean 10 _ i (by omega) (by omega)]
    by_cases hc : 9 ≤ i
    · rw [if_pos (by omega : 10 ≤ i + 1), if_pos hc, show i + 1 - 10 = i - 9 from by omega]
    · rw [if_neg (by omega : ¬ 10 ≤ i + 1), if_neg hc]

/-- C1 witness: on the spec's closes `[10, 11, 12, 11, 10, 9, 10, 11, 12, 13, 14]`,
`MA_5d` at index 4 is `10.8 = 54/5` and `Return_1d` at index 1 is `0.10 = 1/10`. -/
theorem featurizeGroup_return_ma_formulas_witness :
    ((featurizeGroup demoG).getD 4 default).MA_5d = some (54 / 5)
    ∧ ((featurizeGroup demoG).getD 1 default).Return_1d = some (1 / 10) := by
  constructor
  · rw [(featurizeGroup_return_ma_formulas demoG 4 (by decide)).2.1]
    with_unfolding_all rfl
  · rw [(featurizeGroup_return_ma_formulas demoG 1 (by decide)).1]
    with_unfolding_all rfl

/-! ## Claim C2: rolling volatility -/

/-- C2: for every ticker partition, the volatility column at index `i`
is defined exactly when `i ≥ 10` (ten defined consecutive returns first
exist there, since `Return_1d[0]` is missing) and then equals the
sample variance — divisor `n-1`, see `sampleVar` — of the ten values
`Return_1d[i-9..i]`; the code's `Volatility_10d` is its square root. -/
theorem featurizeGroup_volatility_formula (g : List PriceRecord) (i : Nat) (hi : i < g.length) :
    ((featurizeGroup g).getD i default).Volatility_10d_sq
        = (if 10 ≤ i then
            some (sampleVar ((((pct_change ((sortByDate g).map (·.Price_Close))).take (i + 1)).drop
              (i - 9)).reduceOption))
          else none)
    ∧ (10 ≤ i →
        ((((pct_change ((sortByDate g).map (·.Price_Close))).take (i + 1)).drop
          (i - 9)).reduceOption).length = 10) := by
  rw [featurizeGroup_getD g i hi]
  have hclen : ((sortByDate g).map (·.Price_Close)).length = g.length := by
    simp [length_sortByDate]
  constructor
  · show rollingApply sampleVar 10 _ _ = _
    rw [rollingApply_volatility _ i (by omega)]
  · intro hc
    exact pct_change_window_len _ i (by omega) hc

/-- C2 witness: on the spec's example series, the volatility variance at
index 10 is defined and equals the sample variance of the ten returns. -/
theorem featurizeGroup_volatility_formula_witness :
    ((featurizeGroup demoG).getD 10 default).Volatility_10d_sq = some (6679337 / 828184500)
    ∧ ((featurizeGroup demoG).getD 9 default).Volatility_10d_sq = none := by
  constructor
  · rw [(featurizeGroup_volatility_formula demoG 10 (by decide)).1]
    with_unfolding_all rfl
  · rw [(featurizeGroup_volatility_formula demoG 9 (by decide)).1]
    rfl

/-! ## Lemmas: the cleaning stage -/

theorem mem_positivityFilter {X : List PriceRecord} {r : PriceRecord} :
    r ∈ positivityFilter X ↔
      r ∈ X ∧ 0 < r.Price_Open ∧ 0 < r.Price_Close ∧ 0 < r.Price_High ∧
        0 < r.Price_Low ∧ 0 < r.Volume := by
  simp only [positivityFilter, List.mem_filter, decide_eq_true_eq]
  tauto

theorem positivityFilter_eq_self {X : List PriceRecord}
    (h : ∀ r ∈ X, 0 < r.Price_Open ∧ 0 < r.Price_Close ∧ 0 < r.Price_High ∧
      0 < r.Price_Low ∧ 0 < r.Volume) :
    positivityFilter X = X := by
  have h1 : X.filter (fun r => decide (0 < r.Price_Open)) = X :=
    List.filter_eq_self.mpr fun r hr => by simpa using (h r hr).1
  have h2 : X.filter (fun r => decide (0 < r.Price_Close)) = X :=
    List.filter_eq_self.mpr fun r hr => by simpa using (h r hr).2.1
  have h3 : X.filter (fun r => decide (0 < r.Price_High)) = X :=
    List.filter_eq_self.mpr fun r hr => by simpa using (h r hr).2.2.1
  have h4 : X.filter (fun r => decide (0 < r.Price_Low)) = X :=
    List.filter_eq_self.mpr fun r hr => by simpa using (h r hr).2.2.2.1
  have h5 : X.filter (fun r => decide (0 < r.Volume)) = X :=
    List.filter_eq_self.mpr fun r hr => by simpa using (h r hr).2.2.2.2
  unfold positivityFilter
  rw [h1, h2, h3, h4, h5]

theorem clean_data_ok_elim {rows : List RawRow} {out : List PriceRecord}
    (h : clean_data rows = Except.ok out) :
    out = List.insertionSort keyLe (positivityFilter (rows.filterMap RawRow.dropnaOk)) := by
  unfold clean_data at h
  by_cases hb : rows.any fun w => decide (w.date = DateCell.unparseable)
  · rw [if_pos hb] at h
    exact Except.noConfusion h
  · rw [if_neg hb] at h
    injection h with h'
    exact h'.symm

/-! ## Claim C4: empty input

The claim asserts that neither stage errs on empty input.  The cleaning
stage indeed returns an empty output, but the feature stage's
`pd.concat(feature_frames, ...)` receives an empty list of frames when
the cleaned input is empty and raises `ValueError: No objects to
concatenate`, which nothing catches: the feature stage does fail on
empty input. -/

/-- C4 counterexample: on the empty cleaned input the feature stage does
not return an empty output — it fails (the uncaught `pd.concat`
`ValueError`), contradicting the claim's "neither stage raises". -/
theorem empty_input_feature_error :
    engineer_features ([] : List PriceRecord) ≠ Except.ok []
    ∧ engineer_features ([] : List PriceRecord) = Except.error FeatureError.emptyConcat := by
  refine ⟨?_, rfl⟩
  intro h
  rw [show engineer_features ([] : List PriceRecord)
      = Except.error FeatureError.emptyConcat from rfl] at h
  exact Except.noConfusion h

/-- C4 amended: an empty raw input yields an empty cleaned output and no
error from the cleaning stage; the feature stage, however, fails on the
empty cleaned input (`pd.concat` with no frames) instead of returning an
empty featured output. -/
theorem empty_input_empty_output :
    clean_data [] = Except.ok []
    ∧ engineer_features ([] : List PriceRecord) = Except.error FeatureError.emptyConcat :=
  ⟨rfl, rfl⟩

/-! ## Claim C7: date-parse failure is fatal and the only failure -/

/-- C7: the cleaning stage fails (with the parse error, producing no
output at all — the `Except` carries either the whole result or
nothing) exactly when some row's date cell is unparseable, even a row
the later filters would have dropped; when every date parses it always
succeeds, however bad the remaining data. -/
theorem clean_data_parse_error_iff (rows : List RawRow) :
    (clean_data rows = Except.error CleanError.parseError
        ↔ ∃ w ∈ rows, w.date = DateCell.unparseable)
    ∧ ((∀ w ∈ rows, w.date ≠ DateCell.unparseable) →
        ∃ out, clean_data rows = Except.ok out) := by
  unfold clean_data
  by_cases hb : rows.any fun w => decide (w.date = DateCell.unparseable)
  · rw [if_pos hb]
    simp only [List.any_eq_true, decide_eq_true_eq] at hb
    refine ⟨⟨fun _ => hb, fun _ => rfl⟩, fun hall => ?_⟩
    obtain ⟨w, hw, hd⟩ := hb
    exact absurd hd (hall w hw)
  · rw [if_neg hb]
    simp only [List.any_eq_true, decide_eq_true_eq] at hb
    exact ⟨⟨fun h => Except.noConfusion h, fun hex => absurd hex hb⟩, fun _ => ⟨_, rfl⟩⟩

/-- C7 witness: one unparseable date among otherwise-droppable rows
aborts the stage; the same rows with parseable dates succeed. -/
theorem clean_data_parse_error_iff_witness :
    (clean_data [demoRawNegVol, demoRawBadDate] = Except.error CleanError.parseError
        ↔ ∃ w ∈ [demoRawNegVol, demoRawBadDate], w.date = DateCell.unparseable)
    ∧ clean_data [demoRawNegVol, demoRawBadDate] = Except.error CleanError.parseError := by
  refine ⟨(clean_data_parse_error_iff [demoRawNegVol, demoRawBadDate]).1, ?_⟩
  exact (clean_data_parse_error_iff [demoRawNegVol, demoRawBadDate]).1.mpr
    ⟨demoRawBadDate, by simp, rfl⟩

/-! ## Claim C6: output validity (positivity, no missing fields) -/

/-- C6: every record the cleaning stage outputs has strictly positive
open, close, high, low and volume, and stems from an input row all of
whose fields were present (rows violating either condition never reach
the output: an output record IS positive, so a non-positive record is
absent). -/
theorem clean_data_output_valid (rows : List RawRow) (out : List PriceRecord)
    (h : clean_data rows = Except.ok out) (r : PriceRecord) (hr : r ∈ out) :
    (0 < r.Price_Open ∧ 0 < r.Price_Close ∧ 0 < r.Price_High ∧
      0 < r.Price_Low ∧ 0 < r.Volume)
    ∧ r ∈ rows.filterMap RawRow.dropnaOk := by
  rw [clean_data_ok_elim h, List.mem_insertionSort, mem_positivityFilter] at hr
  exact ⟨hr.2, hr.1⟩

/-- C6 witness: with a negative-volume row and a missing-close row
injected, the surviving record is positive and fully present. -/
theorem clean_data_output_valid_witness :
    (0 < demoRecA.Price_Open ∧ 0 < demoRecA.Price_Close ∧ 0 < demoRecA.Price_High ∧
      0 < demoRecA.Price_Low ∧ 0 < demoRecA.Volume)
    ∧ demoRecA ∈ [demoRawNegVol, demoRawNull, demoRawA].filterMap RawRow.dropnaOk := by
  exact clean_data_output_valid [demoRawNegVol, demoRawNull, demoRawA] [demoRecA]
    (by with_unfolding_all rfl) demoRecA (List.mem_singleton.mpr rfl)

/-! ## Claim C5: the cleaned output is sorted, stably -/

/-- C5: the cleaned output is sorted by `(ticker, date)` ascending, and
any two surviving rows with equal keys keep their relative order from
the input (`positivityFilter (rows.filterMap dropnaOk)` lists the
surviving rows in input order; pairs of it with equal keys are still
pairs of the sorted output — stability). -/
theorem clean_data_sorted_stable (rows : List RawRow) (out : List PriceRecord)
    (h : clean_data rows = Except.ok out) :
    List.Sorted keyLe out
    ∧ ∀ a b : PriceRecord, a.ticker = b.ticker → a.date = b.date →
        List.Sublist [a, b] (positivityFilter (rows.filterMap RawRow.dropnaOk)) →
        List.Sublist [a, b] out := by
  rw [clean_data_ok_elim h]
  constructor
  · exact List.sorted_insertionSort keyLe _
  · intro a b ht hd hsub
    exact List.pair_sublist_insertionSort (Or.inr ⟨ht, le_of_eq hd⟩) hsub

/-- C5 witness: two records with the same `(ticker, date)` key and
different volumes come out sorted and in their original order. -/
theorem clean_data_sorted_stable_witness :
    List.Sorted keyLe [demoTieFst, demoTieSnd]
    ∧ List.Sublist [demoTieFst, demoTieSnd] [demoTieFst, demoTieSnd] := by
  have h := clean_data_sorted_stable [demoTieFst.toRaw, demoTieSnd.toRaw]
    [demoTieFst, demoTieSnd] (by with_unfolding_all rfl)
  refine ⟨h.1, h.2 demoTieFst demoTieSnd rfl rfl ?_⟩
  have e : positivityFilter ([demoTieFst.toRaw, demoTieSnd.toRaw].filterMap RawRow.dropnaOk)
      = [demoTieFst, demoTieSnd] := by with_unfolding_all rfl
  rw [e]

/-! ## Claim C9: the cleaning stage is idempotent -/

/-- C9: feeding the cleaning stage its own output (re-serialized as raw
rows) returns exactly that output: no row is dropped and the order is
unchanged. -/
theorem clean_data_idempotent (rows : List RawRow) (out : List PriceRecord)
    (h : clean_data rows = Except.ok out) :
    clean_data (out.map PriceRecord.toRaw) = Except.ok out := by
  have hout := clean_data_ok_elim h
  have hnb : ¬ ((out.map PriceRecord.toRaw).any fun w =>
      decide (w.date = DateCell.unparseable)) = true := by
    simp [PriceRecord.toRaw]
  unfold clean_data
  rw [if_neg hnb]
  have hfm : (out.map PriceRecord.toRaw).filterMap RawRow.dropnaOk = out := by
    rw [List.filterMap_map]
    have hcomp : (RawRow.dropnaOk ∘ PriceRecord.toRaw) = some := by
      funext r
      rfl
    rw [hcomp, List.filterMap_some]
  rw [hfm]
  have hpos : positivityFilter out = out := by
    apply positivityFilter_eq_self
    intro r hr
    rw [hout, List.mem_insertionSort, mem_positivityFilter] at hr
    exact hr.2
  rw [hpos]
  have hsorted : List.Sorted keyLe out := by
    rw [hout]
    exact List.sorted_insertionSort keyLe _
  rw [List.Sorted.insertionSort_eq hsorted]

/-- C9 witness: cleaning the cleaned two-ticker output again returns it
unchanged. -/
theorem clean_data_idempotent_witness :
    clean_data ([demoRecA, demoRecB].map PriceRecord.toRaw)
      = Except.ok [demoRecA, demoRecB] :=
  clean_data_idempotent [demoRawB, demoRawNegVol, demoRawA] [demoRecA, demoRecB]
    (by with_unfolding_all rfl)

/-! ## Lemmas: grouping and recombination -/

theorem featurizeGroup_map_base (g : List PriceRecord) :
    (featurizeGroup g).map (·.toPriceRecord) = sortByDate g := by
  apply List.ext_getElem
  · simp [length_featurizeGroup, length_sortByDate]
  · intro i h1 h2
    simp only [featurizeGroup, List.getElem_map, List.getElem_range]
    exact getD_of_lt _ _ h2

theorem mem_featurizeGroup_base {g : List PriceRecord} {fr : FeaturedRecord}
    (h : fr ∈ featurizeGroup g) : fr.toPriceRecord ∈ g := by
  have hm : fr.toPriceRecord ∈ (featurizeGroup g).map (·.toPriceRecord) :=
    List.mem_map_of_mem _ h
  rw [featurizeGroup_map_base, sortByDate, List.mem_insertionSort] at hm
  exact hm

theorem mem_groupOf {rs : List PriceRecord} {t : String} {r : PriceRecord} :
    r ∈ groupOf rs t ↔ r ∈ rs ∧ r.ticker = t := by
  simp [groupOf]

theorem groupOf_groupOf (rs : List PriceRecord) (t : String) :
    groupOf (groupOf rs t) t = groupOf rs t :=
  List.filter_eq_self.mpr fun r hr => by simpa using (mem_groupOf.mp hr).2

theorem tickers_nodup (rs : List PriceRecord) : (tickers rs).Nodup := by
  unfold tickers
  exact ((List.perm_insertionSort _ _).nodup_iff).mpr (List.nodup_dedup _)

theorem mem_tickers {rs : List PriceRecord} {t : String} :
    t ∈ tickers rs ↔ t ∈ rs.map (·.ticker) := by
  unfold tickers
  rw [List.mem_insertionSort, List.mem_dedup]

theorem groupOf_eq_nil_of_not_mem {rs : List PriceRecord} {t : String}
    (h : t ∉ rs.map (·.ticker)) : groupOf rs t = [] := by
  rw [groupOf, List.filter_eq_nil_iff]
  intro r hr hrt
  exact h (List.mem_map.mpr ⟨r, hr, by simpa using hrt⟩)

theorem featurizeGroup_groupOf_ticker {rs : List PriceRecord} {t : String} {fr : FeaturedRecord}
    (h : fr ∈ featurizeGroup (groupOf rs t)) : fr.toPriceRecord.ticker = t :=
  (mem_groupOf.mp (mem_featurizeGroup_base h)).2

theorem flatten_map_ite {keys : List String} (hnd : keys.Nodup) (t : String)
    (A : List FeaturedRecord) :
    ((keys.map fun k => if k = t then A else [])).flatten
      = if t ∈ keys then A else [] := by
  induction keys with
  | nil => simp
  | cons k ks ih =>
    have hnd' := (List.nodup_cons.mp hnd).2
    have hk1 := (List.nodup_cons.mp hnd).1
    simp only [List.map_cons, List.flatten_cons]
    by_cases hk : k = t
    · subst hk
      rw [if_pos rfl, ih hnd', if_neg hk1, if_pos (List.mem_cons_self k ks)]
      simp
    · rw [if_neg hk, ih hnd', List.nil_append]
      by_cases hmem : t ∈ ks
      · rw [if_pos hmem, if_pos (List.mem_cons_of_mem k hmem)]
      · rw [if_neg hmem, if_neg (by
          intro hc
          rcases List.mem_cons.mp hc with hc | hc
          · exact hk hc.symm
          · exact hmem hc)]

theorem featuredRows_filter_ticker (rs : List PriceRecord) (t : String) :
    ((featuredRows rs).filter fun fr => decide (fr.toPriceRecord.ticker = t))
      = (featurizeGroup (groupOf rs t)).filter hasAllFeatures := by
  unfold featuredRows
  rw [List.filter_filter, List.filter_flatten, List.map_map]
  have hblocks : ((tickers rs).map
        ((List.filter fun a => decide (a.toPriceRecord.ticker = t) && hasAllFeatures a) ∘
          fun k => featurizeGroup (groupOf rs k)))
      = (tickers rs).map fun k =>
          if k = t then (featurizeGroup (groupOf rs t)).filter hasAllFeatures else [] := by
    apply List.map_congr_left
    intro k _
    by_cases hk : k = t
    · subst hk
      rw [if_pos rfl]
      exact List.filter_congr fun fr hfr => by
        simp [featurizeGroup_groupOf_ticker hfr]
    · rw [if_neg hk]
      simp only [Function.comp_apply]
      rw [List.filter_eq_nil_iff]
      intro fr hfr hcontra
      rw [featurizeGroup_groupOf_ticker hfr] at hcontra
      simp [hk] at hcontra
  rw [hblocks, flatten_map_ite (tickers_nodup rs) t]
  by_cases hmem : t ∈ tickers rs
  · rw [if_pos hmem]
  · rw [if_neg hmem]
    rw [groupOf_eq_nil_of_not_mem (fun hc => hmem (mem_tickers.mpr hc))]
    rfl

/-- A filter whose predicate holds exactly from index `k` on drops the
first `k` elements and keeps the rest. -/
theorem filter_eq_drop_of_getElem {α : Type} (p : α → Bool) :
    ∀ (L : List α) (k : Nat), (∀ i (h : i < L.length), p (L[i]) = decide (k ≤ i)) →
      L.filter p = L.drop k
  | [], k, _ => by simp
  | a :: L, 0, h => by
    have hall : ∀ x ∈ a :: L, p x := by
      intro x hx
      obtain ⟨i, hi, rfl⟩ := List.mem_iff_getElem.mp hx
      rw [h i hi]
      simp
    rw [List.filter_eq_self.mpr hall, List.drop_zero]
  | a :: L, k + 1, h => by
    have h0 : p a = false := by
      have := h 0 (by simp)
      simpa using this
    rw [List.filter_cons_of_neg (by simp [h0]), List.drop_succ_cons]
    apply filter_eq_drop_of_getElem p L k
    intro i hi
    have := h (i + 1) (by simpa using Nat.succ_lt_succ hi)
    simpa using this

theorem hasAllFeatures_getD (g : List PriceRecord) (i : Nat) (hi : i < g.length) :
    hasAllFeatures ((featurizeGroup g).getD i default) = decide (10 ≤ i) := by
  have hclen : ((sortByDate g).map (·.Price_Close)).length = g.length := by
    simp [length_sortByDate]
  rw [featurizeGroup_getD g i hi]
  have hR : ((pct_change ((sortByDate g).map (·.Price_Close))).getD i none).isSome
      = decide (1 ≤ i) := by
    cases i with
    | zero => rw [pct_change_getD_zero]; rfl
    | succ j => rw [pct_change_getD_succ _ j (by omega)]; simp
  have hM5 : (rollingApply mean 5 (((sortByDate g).map (·.Price_Close)).map some) i).isSome
      = decide (4 ≤ i) := by
    rw [rollingApply_map_some mean 5 _ i (by omega) (by omega)]
    by_cases h4 : 4 ≤ i
    · rw [if_pos (by omega)]
      simp [h4]
    · rw [if_neg (by omega)]
      simp [h4]
  have hM10 : (rollingApply mean 10 (((sortByDate g).map (·.Price_Close)).map some) i).isSome
      = decide (9 ≤ i) := by
    rw [rollingApply_map_some mean 10 _ i (by omega) (by omega)]
    by_cases h9 : 9 ≤ i
    · rw [if_pos (by omega)]
      simp [h9]
    · rw [if_neg (by omega)]
      simp [h9]
  have hV : (rollingApply sampleVar 10 (pct_change ((sortByDate g).map (·.Price_Close))) i).isSome
      = decide (10 ≤ i) := by
    rw [rollingApply_volatility _ i (by omega)]
    by_cases h10 : 10 ≤ i
    · rw [if_pos h10]
      simp [h10]
    · rw [if_neg h10]
      simp [h10]
  simp only [hasAllFeatures]
  rw [hR, hM5, hM10, hV]
  by_cases h10 : 10 ≤ i
  · simp [h10, (by omega : 1 ≤ i), (by omega : 4 ≤ i), (by omega : 9 ≤ i)]
  · simp [h10]

theorem featurizeGroup_filter_eq_drop (g : List PriceRecord) :
    (featurizeGroup g).filter hasAllFeatures = (featurizeGroup g).drop 10 := by
  apply filter_eq_drop_of_getElem
  intro i hi
  have hig : i < g.length := by rw [length_featurizeGroup] at hi; exact hi
  rw [← getD_of_lt _ default hi]
  exact hasAllFeatures_getD g i hig

theorem engineer_features_ok_elim {rs : List PriceRecord} {out : List FeaturedRecord}
    (h : engineer_features rs = Except.ok out) : out = featuredRows rs := by
  unfold engineer_features at h
  by_cases he : tickers rs = []
  · rw [if_pos he] at h
    exact Except.noConfusion h
  · rw [if_neg he] at h
    injection h with h'
    exact h'.symm

/-! ## Claim C3: minimum history per ticker -/

/-- C3: the final `dropna` removes exactly each ticker's first ten rows
(indices `0..9`, where some derived column is still missing) and keeps
every later row; hence a ticker with `n` cleaned observations
contributes `n - 10` rows to the featured output — `0` rows for `n = 10`
and `1` row for `n = 11`. -/
theorem feature_min_history (rs : List PriceRecord) (t : String)
    (out : List FeaturedRecord) (h : engineer_features rs = Except.ok out) :
    (out.filter fun fr => decide (fr.toPriceRecord.ticker = t))
        = (featurizeGroup (groupOf rs t)).drop 10
    ∧ (out.filter fun fr => decide (fr.toPriceRecord.ticker = t)).length
        = (groupOf rs t).length - 10 := by
  rw [engineer_features_ok_elim h]
  have key := featuredRows_filter_ticker rs t
  have hfd := featurizeGroup_filter_eq_drop (groupOf rs t)
  refine ⟨by rw [key, hfd], ?_⟩
  rw [key, hfd, List.length_drop, length_featurizeGroup]

/-- C3 witness: the 11-observation demo ticker contributes exactly one
row, and its 10-observation truncation contributes none. -/
theorem feature_min_history_witness :
    ((featuredRows demoG).filter fun fr => decide (fr.toPriceRecord.ticker = "AAPL")).length = 1
    ∧ ((featuredRows (demoG.take 10)).filter fun fr =>
        decide (fr.toPriceRecord.ticker = "AAPL")).length = 0 := by
  constructor
  · rw [(feature_min_history demoG "AAPL" (featuredRows demoG) (by with_unfolding_all rfl)).2]
    with_unfolding_all rfl
  · rw [(feature_min_history (demoG.take 10) "AAPL" (featuredRows (demoG.take 10))
      (by with_unfolding_all rfl)).2]
    with_unfolding_all rfl

/-! ## Claim C8: tickers never influence each other -/

theorem dedup_all_eq {t : String} :
    ∀ {xs : List String}, xs ≠ [] → (∀ x ∈ xs, x = t) → xs.dedup = [t]
  | [], h, _ => absurd rfl h
  | [x], _, hall => by
    rw [hall x (by simp)]
    rfl
  | x :: y :: xs, _, hall => by
    have hx : x = t := hall x (by simp)
    have hy : y = t := hall y (by simp)
    have htail : (y :: xs).dedup = [t] :=
      dedup_all_eq (by simp) fun z hz => hall z (List.mem_cons_of_mem x hz)
    have hmem : x ∈ y :: xs := by
      rw [hx, hy]
      exact List.mem_cons_self t xs
    rw [List.dedup_cons_of_mem hmem, htail]

theorem featuredRows_ticker_restrict (rs : List PriceRecord) (t : String) :
    ((featuredRows rs).filter fun fr => decide (fr.toPriceRecord.ticker = t))
      = featuredRows (groupOf rs t) := by
  rw [featuredRows_filter_ticker]
  by_cases hne : groupOf rs t = []
  · rw [hne]
    rfl
  · have hall : ∀ x ∈ (groupOf rs t).map (·.ticker), x = t := by
      intro x hx
      obtain ⟨r, hr, rfl⟩ := List.mem_map.mp hx
      exact (mem_groupOf.mp hr).2
    have hnonempty : (groupOf rs t).map (·.ticker) ≠ [] := by
      simpa using hne
    have htick : tickers (groupOf rs t) = [t] := by
      unfold tickers
      rw [dedup_all_eq hnonempty hall]
      rfl
    unfold featuredRows
    rw [htick]
    simp only [List.map_cons, List.map_nil, List.flatten_cons, List.flatten_nil,
      List.append_nil]
    rw [groupOf_groupOf]

/-- C8: restricting the featured output of a mixed, arbitrarily
interleaved input to one ticker gives exactly the featured output of
that ticker's rows alone: rolling statistics never cross tickers. -/
theorem multi_ticker_independence (rs : List PriceRecord) (t : String)
    (out outT : List FeaturedRecord) (h : engineer_features rs = Except.ok out)
    (hT : engineer_features (groupOf rs t) = Except.ok outT) :
    (out.filter fun fr => decide (fr.toPriceRecord.ticker = t)) = outT := by
  rw [engineer_features_ok_elim h, engineer_features_ok_elim hT]
  exact featuredRows_ticker_restrict rs t

/-- C8 witness: with a one-row ticker `"B"` interleaved before the demo
ticker's rows, restricting the joint output to `"B"` equals featurizing
`"B"`'s row alone. -/
theorem multi_ticker_independence_witness :
    ((featuredRows demoTwo).filter fun fr => decide (fr.toPriceRecord.ticker = "B"))
      = featuredRows [demoB1] := by
  have h := multi_ticker_independence demoTwo "B" (featuredRows demoTwo)
    (featuredRows (groupOf demoTwo "B")) (by with_unfolding_all rfl) (by with_unfolding_all rfl)
  rw [h]
  with_unfolding_all rfl

/-! ## Claim C10: original fields pass through unchanged -/

theorem flatten_sortByDate_perm (keys : List String) (rs : List PriceRecord) :
    ((keys.map fun t => sortByDate (groupOf rs t)).flatten).Perm
      ((keys.map fun t => groupOf rs t).flatten) := by
  induction keys with
  | nil => rfl
  | cons k ks ih =>
    simp only [List.map_cons, List.flatten_cons]
    exact (List.perm_insertionSort _ _).append ih

theorem flatten_groupOf_perm :
    ∀ (keys : List String) (rs : List PriceRecord), keys.Nodup →
      (∀ r ∈ rs, r.ticker ∈ keys) →
      ((keys.map fun t => groupOf rs t).flatten).Perm rs
  | [], rs, _, hcov => by
    have hnil : rs = [] :=
      List.eq_nil_iff_forall_not_mem.mpr fun r hr => by simpa using hcov r hr
    simp [hnil]
  | k :: ks, rs, hnd, hcov => by
    simp only [List.map_cons, List.flatten_cons]
    have hnd' := (List.nodup_cons.mp hnd).2
    have hk := (List.nodup_cons.mp hnd).1
    have hmapeq : (ks.map fun t => groupOf rs t)
        = ks.map fun t => groupOf (rs.filter fun r => !decide (r.ticker = k)) t := by
      apply List.map_congr_left
      intro t ht
      have htk : t ≠ k := fun hc => hk (hc ▸ ht)
      unfold groupOf
      rw [List.filter_filter]
      apply List.filter_congr
      intro r _
      by_cases hr : r.ticker = t
      · simp [hr, htk]
      · simp [hr]
    rw [hmapeq]
    have hcov' : ∀ r ∈ (rs.filter fun r => !decide (r.ticker = k)), r.ticker ∈ ks := by
      intro r hr
      rw [List.mem_filter] at hr
      have h2 : r.ticker ≠ k := by simpa using hr.2
      rcases List.mem_cons.mp (hcov r hr.1) with h | h
      · exact absurd h h2
      · exact h
    have ihp := flatten_groupOf_perm ks (rs.filter fun r => !decide (r.ticker = k)) hnd' hcov'
    exact (List.Perm.append_left (groupOf rs k) ihp).trans
      (by unfold groupOf; exact List.filter_append_perm _ rs)

/-- C10: the multiset of original `(ticker, date, open, close, high,
low, volume)` tuples carried by the featured output is a sub-multiset
of the cleaned input: every output row carries the unchanged fields of
one input record, and no input record is duplicated — the stage only
appends derived columns and drops whole rows. -/
theorem feature_frame_preserved (rs : List PriceRecord)
    (out : List FeaturedRecord) (h : engineer_features rs = Except.ok out) :
    List.Subperm (out.map (·.toPriceRecord)) rs := by
  rw [engineer_features_ok_elim h]
  have h1 : List.Sublist (featuredRows rs)
      (((tickers rs).map fun t => featurizeGroup (groupOf rs t)).flatten) := by
    unfold featuredRows
    exact List.filter_sublist _
  have h2 := h1.map (·.toPriceRecord)
  have h3 : ((((tickers rs).map fun t => featurizeGroup (groupOf rs t)).flatten).map
        (·.toPriceRecord))
      = ((tickers rs).map fun t => sortByDate (groupOf rs t)).flatten := by
    rw [List.map_flatten, List.map_map]
    apply congrArg
    apply List.map_congr_left
    intro t _
    exact featurizeGroup_map_base (groupOf rs t)
  have h4 := flatten_sortByDate_perm (tickers rs) rs
  have h5 := flatten_groupOf_perm (tickers rs) rs (tickers_nodup rs)
    fun r hr => mem_tickers.mpr (List.mem_map_of_mem _ hr)
  rw [h3] at h2
  exact h2.subperm.trans (h4.trans h5).subperm

/-- C10 witness: on the two-ticker demo input, the original fields
carried by the featured output form a sub-multiset of the input. -/
theorem feature_frame_preserved_witness :
    List.Subperm ((featuredRows demoTwo).map (·.toPriceRecord)) demoTwo :=
  feature_frame_preserved demoTwo (featuredRows demoTwo) (by with_unfolding_all rfl)

end StockPipeline
